import Mathlib

/-!
A verification development for a small line-oriented shell, consisting of a
command-line parser (`parse_single_command`, `parse_pipeline_commands`) and a
pipeline executor (`execute_pipeline`).  The parser is embedded as pure Lean
functions over `String`; the executor, whose effects are file opens and process
spawns, is embedded as a pure function over an oracle environment recording
which opens/spawns succeed, returning a log of the spawn calls made, their
wiring and final process status.
-/

namespace Shell

/-! ## Tokenization

The source tokenizes with Rust's `str::split_whitespace`, which splits on the
Unicode `White_Space` property and discards empty substrings, and trims with
`str::trim`, which strips leading and trailing `White_Space` characters. -/

/-- The Unicode `White_Space` property, the predicate used by Rust's
`char::is_whitespace` (hence by `str::split_whitespace` and `str::trim`). -/
def isRustWhitespace (c : Char) : Bool :=
  c.toNat = 0x09 || c.toNat = 0x0A || c.toNat = 0x0B || c.toNat = 0x0C ||
  c.toNat = 0x0D || c.toNat = 0x20 || c.toNat = 0x85 || c.toNat = 0xA0 ||
  c.toNat = 0x1680 || (0x2000 ≤ c.toNat && c.toNat ≤ 0x200A) ||
  c.toNat = 0x2028 || c.toNat = 0x2029 || c.toNat = 0x202F ||
  c.toNat = 0x205F || c.toNat = 0x3000

/-- ASCII whitespace (Rust's `char::is_ascii_whitespace`): space, tab,
line feed, form feed, carriage return. -/
def isAsciiWhitespace (c : Char) : Bool :=
  c.toNat = 0x09 || c.toNat = 0x0A || c.toNat = 0x0C || c.toNat = 0x0D ||
  c.toNat = 0x20

/-- Embedding of Rust's `str::split_whitespace`, following its implementation
`self.split(char::is_whitespace).filter(|s| !s.is_empty())`. -/
def splitWhitespace (s : String) : List String :=
  ((s.data.splitOnP isRustWhitespace).filter (fun l => !l.isEmpty)).map
    (fun l => String.mk l)

/-- Embedding of Rust's `str::trim`: drop leading and trailing characters
satisfying the Unicode `White_Space` property. -/
def trimStr (s : String) : String :=
  String.mk (((s.data.dropWhile isRustWhitespace).reverse.dropWhile
    isRustWhitespace).reverse)

/-- Embedding of Rust's `command_line.split('|')` (which yields the substrings
between occurrences of the separator, empty ones included). -/
def splitPipe (s : String) : List String :=
  (s.data.splitOnP (fun c => c = '|')).map (fun l => String.mk l)

/-- The length of `List.dropWhile` is at most the length of the input. -/
theorem dropWhile_length_le {α : Type} (p : α → Bool) (l : List α) :
    (l.dropWhile p).length ≤ l.length := by
  induction l with
  | nil => simp [List.dropWhile]
  | cons a l ih =>
    rw [List.dropWhile]
    split
    · exact Nat.le_trans ih (Nat.le_succ _)
    · exact Nat.le_refl _

/-- The maximal runs of characters not satisfying `p`, in order: the
specification-level description of whitespace tokenization ("tokens are
exactly the maximal runs of non-whitespace characters"). -/
def maximalRuns (p : Char → Bool) : List Char → List (List Char)
  | [] => []
  | c :: cs =>
    if p c then maximalRuns p cs
    else (c :: cs.takeWhile (fun d => !p d)) ::
      maximalRuns p (cs.dropWhile (fun d => !p d))
termination_by l => l.length
decreasing_by
  · simp
  · simp only [List.length_cons]
    exact Nat.lt_succ_of_le (dropWhile_length_le _ cs)

/-- Tokenization as the claim states it: maximal runs of characters that are
not ASCII whitespace. -/
def asciiTokens (s : String) : List String :=
  (maximalRuns isAsciiWhitespace s.data).map (fun l => String.mk l)

/-! ## The parser -/

/-- `ParsedCommand` from `parser.rs`: one pipeline stage. -/
structure ParsedCommand where
  name : String
  args : List String
  stdin_redirect : Option String
  stdout_redirect : Option (String × Bool)
  stderr_redirect : Option String
deriving Repr, DecidableEq

/-- The mutable locals of `parse_single_command`'s scanning loop. -/
structure ScanState where
  args : List String
  stdin_redirect : Option String
  stdout_redirect : Option (String × Bool)
  stderr_redirect : Option String
deriving Repr, DecidableEq

/-- The initial scan state: empty `args`, no redirects. -/
def initScan : ScanState := ⟨[], none, none, none⟩

/-- The `while i < parts.len()` loop of `parse_single_command`, as a recursion
over the remaining tokens.  Each redirection operator consumes the following
token as its path (overwriting any earlier assignment to the same field) and
fails with the source's error string when no token follows; any other token is
pushed onto `args`. -/
def scanTokens : List String → ScanState → Except String ScanState
  | [], st => .ok st
  | tok :: rest, st =>
    if tok = "<" then
      match rest with
      | path :: rest' => scanTokens rest' { st with stdin_redirect := some path }
      | [] => .error "输入重定向缺少文件名 (<)"
    else if tok = ">" then
      match rest with
      | path :: rest' =>
        scanTokens rest' { st with stdout_redirect := some (path, false) }
      | [] => .error "输出重定向缺少文件名 (>)\nmy_shell: 解析错误:"
    else if tok = ">>" then
      match rest with
      | path :: rest' =>
        scanTokens rest' { st with stdout_redirect := some (path, true) }
      | [] => .error "输出重定向缺少文件名 (>>)"
    else if tok = "2>" then
      match rest with
      | path :: rest' => scanTokens rest' { st with stderr_redirect := some path }
      | [] => .error "标准错误重定向缺少文件名 (2>)"
    else
      scanTokens rest { st with args := st.args ++ [tok] }

/-- `parse_single_command` from `parser.rs`: tokenize the segment, take the
first token as the command name (failing on an empty token list), scan the
remaining tokens for arguments and redirections. -/
def parse_single_command (command_segment : String) :
    Except String ParsedCommand :=
  match splitWhitespace command_segment with
  | [] => .error "空命令段"
  | name :: restTokens =>
    match scanTokens restTokens initScan with
    | .error e => .error e
    | .ok st => .ok ⟨name, st.args, st.stdin_redirect, st.stdout_redirect,
        st.stderr_redirect⟩

/-- The `for segment in segments` loop of `parse_pipeline_commands`: reject a
segment that trims to empty, otherwise parse the trimmed segment and push the
result, propagating parse errors. -/
def parseSegments : List String → List ParsedCommand →
    Except String (List ParsedCommand)
  | [], acc => .ok acc
  | seg :: rest, acc =>
    if trimStr seg = "" then .error "管道符 ' | ' 后不能有空命令."
    else
      match parse_single_command (trimStr seg) with
      | .error e => .error e
      | .ok c => parseSegments rest (acc ++ [c])

/-- `parse_pipeline_commands` from `parser.rs`: split the line on the pipe
character and parse each segment in order. -/
def parse_pipeline_commands (command_line : String) :
    Except String (List ParsedCommand) :=
  parseSegments (splitPipe command_line) []

/-! ## The executor

`execute_pipeline` from `executor.rs` is embedded as a pure function over an
oracle `Env` telling which file opens (`File::open`, `File::create`,
append-mode `File::options().create(true).append(true).open`) and which spawns
(`Command::new(name).spawn()`) succeed.  The function returns a log of the
spawn calls made (stage index, argv, the three stream wirings, and the final
status of the spawned process), the list of stage indices whose loop iteration
was entered, and the stage/cause of the first failure, if any.  `kill` is
modelled as terminating its process, and `wait` as letting it run to exit. -/

/-- Oracle for the executor's effects: which paths can be opened for reading,
created (truncate), opened for append, and which program names spawn
successfully. -/
structure Env where
  openOk : String → Bool
  createOk : String → Bool
  appendOk : String → Bool
  spawnOk : String → Bool

/-- How a spawned stage's stdin was wired. -/
inductive StdinSrc where
  | inherit
  | pipeFromPrev
  | file (path : String)
deriving Repr, DecidableEq

/-- How a spawned stage's stdout was wired. -/
inductive StdoutDst where
  | inherit
  | piped
  | file (path : String) (append : Bool)
deriving Repr, DecidableEq

/-- How a spawned stage's stderr was wired. -/
inductive StderrDst where
  | inherit
  | file (path : String)
deriving Repr, DecidableEq

/-- Final status of a spawned process when `execute_pipeline` returns:
still running, force-killed during cleanup, or exited (waited on). -/
inductive ProcStatus where
  | running
  | killed
  | exited
deriving Repr, DecidableEq

/-- The cause of an aborted pipeline construction, mirroring the four
`eprintln!`-then-cleanup paths of `execute_pipeline`. -/
inductive ExecFailure where
  | inputRedirect (path : String)
  | outputRedirect (path : String)
  | errorRedirect (path : String)
  | spawnFailed (name : String)
deriving Repr, DecidableEq

/-- One spawn call recorded by the executor, with the final status of the
resulting process. -/
structure SpawnCall where
  stage : Nat
  name : String
  args : List String
  stdin : StdinSrc
  stdout : StdoutDst
  stderr : StderrDst
  status : ProcStatus
deriving Repr, DecidableEq

/-- The observable outcome of `execute_pipeline`. -/
structure ExecResult where
  calls : List SpawnCall
  attempted : List Nat
  failedAt : Option (Nat × ExecFailure)
deriving Repr, DecidableEq

/-- Stdin wiring for stage `i` (`executor.rs` lines 15–37): a pending piped
output from the previous stage wins; otherwise only stage 0 consults its
`stdin_redirect`, opening the file for reading. -/
def wireStdin (env : Env) (cmd : ParsedCommand) (i : Nat) (prevOut : Bool) :
    Except ExecFailure StdinSrc :=
  if prevOut then .ok .pipeFromPrev
  else if i = 0 then
    match cmd.stdin_redirect with
    | some path =>
      if env.openOk path then .ok (.file path)
      else .error (.inputRedirect path)
    | none => .ok .inherit
  else .ok .inherit

/-- Stdout wiring (`executor.rs` lines 39–67): every non-last stage is piped;
the last stage opens its `stdout_redirect` in append or truncate mode, or
inherits. -/
def wireStdout (env : Env) (cmd : ParsedCommand) (isLast : Bool) :
    Except ExecFailure StdoutDst :=
  if !isLast then .ok .piped
  else
    match cmd.stdout_redirect with
    | some (path, append) =>
      if append then
        if env.appendOk path then .ok (.file path true)
        else .error (.outputRedirect path)
      else
        if env.createOk path then .ok (.file path false)
        else .error (.outputRedirect path)
    | none => .ok .inherit

/-- Stderr wiring (`executor.rs` lines 69–87): independent of position;
truncate-create the `stderr_redirect` path or inherit. -/
def wireStderr (env : Env) (cmd : ParsedCommand) :
    Except ExecFailure StderrDst :=
  match cmd.stderr_redirect with
  | some path =>
    if env.createOk path then .ok (.file path)
    else .error (.errorRedirect path)
  | none => .ok .inherit

/-- Mark every process in the log as force-killed: the cleanup loop
`for c in children.iter_mut() { let _ = c.kill(); }` run on a failure path
(every spawned process is still in `children` at that point). -/
def killAll (calls : List SpawnCall) : List SpawnCall :=
  calls.map (fun c => { c with status := .killed })

/-- Mark every process in the log as exited: the final
`for mut child in children.drain(..) { let _ = child.wait(); }` loop. -/
def waitAll (calls : List SpawnCall) : List SpawnCall :=
  calls.map (fun c => { c with status := .exited })

/-- The `for (i, parsed_cmd) in parsed_commands.iter().enumerate()` loop of
`execute_pipeline`, structurally recursing on the remaining commands.
`i` is the current stage index, `prevOut` records whether the previous stage
left a pending piped stdout (exactly when it was spawned non-last), `calls`
the spawns so far (all still running), `attempted` the stages entered so far.
On any wiring or spawn failure: kill all spawned children and break; after a
complete loop: wait for all children. -/
def runStages (env : Env) :
    List ParsedCommand → Nat → Bool → List SpawnCall → List Nat → ExecResult
  | [], _, _, calls, attempted => ⟨waitAll calls, attempted, none⟩
  | cmd :: rest, i, prevOut, calls, attempted =>
    match wireStdin env cmd i prevOut with
    | .error f => ⟨killAll calls, attempted ++ [i], some (i, f)⟩
    | .ok sin =>
      match wireStdout env cmd rest.isEmpty with
      | .error f => ⟨killAll calls, attempted ++ [i], some (i, f)⟩
      | .ok sout =>
        match wireStderr env cmd with
        | .error f => ⟨killAll calls, attempted ++ [i], some (i, f)⟩
        | .ok serr =>
          if env.spawnOk cmd.name then
            runStages env rest (i + 1) (!rest.isEmpty)
              (calls ++ [⟨i, cmd.name, cmd.args, sin, sout, serr, .running⟩])
              (attempted ++ [i])
          else ⟨killAll calls, attempted ++ [i], some (i, .spawnFailed cmd.name)⟩

/-- `execute_pipeline` from `executor.rs`, over the effect oracle `env`. -/
def execute_pipeline (env : Env) (parsed_commands : List ParsedCommand) :
    ExecResult :=
  runStages env parsed_commands 0 false [] []

/-! ## Specification-side definitions

These follow the wording of the specification and its claims; the theorems
below relate them to the source embeddings above. -/

/-- The four reserved redirection operator tokens. -/
def isOpTok (t : String) : Bool :=
  t = "<" || t = ">" || t = ">>" || t = "2>"

/-- The role a token plays in the scan: ordinary argument, redirection
operator, or the path target of the directly preceding operator. -/
inductive TokenRole where
  | arg
  | op
  | target
deriving Repr, DecidableEq

/-- Assign each token after the command name its role, as the specification
describes the scan: a reserved operator consumes the following token as its
path (`none` if there is none); any other token is an argument. -/
def classifyTokens : List String → Option (List TokenRole)
  | [] => some []
  | tok :: rest =>
    if isOpTok tok then
      match rest with
      | _ :: rest' =>
        (classifyTokens rest').map (fun rs => .op :: .target :: rs)
      | [] => none
    else (classifyTokens rest).map (fun rs => .arg :: rs)

/-- Well-formedness of a role list: every operator is immediately followed by
its target, and targets appear only there — each token is exactly one half of
one operator–path pair or an argument. -/
def rolesWF : List TokenRole → Bool
  | [] => true
  | .arg :: rs => rolesWF rs
  | .op :: .target :: rs => rolesWF rs
  | .op :: [] => false
  | .op :: .arg :: _ => false
  | .op :: .op :: _ => false
  | .target :: _ => false

/-- The tokens holding role `arg`, in input order. -/
def selectArgs (tokens : List String) (roles : List TokenRole) : List String :=
  (tokens.zip roles).filterMap
    (fun p => if p.2 = TokenRole.arg then some p.1 else none)

/-- The operator–path pairs the scan consumes, in order (`none` when a
trailing operator lacks its path). -/
def redirectPairs : List String → Option (List (String × String))
  | [] => some []
  | tok :: rest =>
    if isOpTok tok then
      match rest with
      | path :: rest' => (redirectPairs rest').map (fun ps => (tok, path) :: ps)
      | [] => none
    else redirectPairs rest

/-- Last-write-wins effect of one consumed pair on the stdin redirect. -/
def stdinStep (acc : Option String) (p : String × String) : Option String :=
  if p.1 = "<" then some p.2 else acc

/-- Last-write-wins effect of one consumed pair on the stdout redirect. -/
def stdoutStep (acc : Option (String × Bool)) (p : String × String) :
    Option (String × Bool) :=
  if p.1 = ">" then some (p.2, false)
  else if p.1 = ">>" then some (p.2, true)
  else acc

/-- Last-write-wins effect of one consumed pair on the stderr redirect. -/
def stderrStep (acc : Option String) (p : String × String) : Option String :=
  if p.1 = "2>" then some p.2 else acc

/-- The exact error message `parse_single_command` produces for a reserved
operator with no following token. -/
def missingTargetMsg : String → String
  | "<" => "输入重定向缺少文件名 (<)"
  | ">" => "输出重定向缺少文件名 (>)\nmy_shell: 解析错误:"
  | ">>" => "输出重定向缺少文件名 (>>)"
  | _ => "标准错误重定向缺少文件名 (2>)"

/-- The error message of the empty-command branch of `parse_single_command`. -/
def emptyCommandMsg : String := "空命令段"

/-- The error message of the empty-pipeline-stage branch of
`parse_pipeline_commands`. -/
def emptyStageMsg : String := "管道符 ' | ' 后不能有空命令."

/-- Blank out the redirect fields the specification says can never take
effect: `stdin_redirect` on every stage after the first (`i` is the index of
the current head), `stdout_redirect` on every stage before the last. -/
def maskFrom : List ParsedCommand → Nat → List ParsedCommand
  | [], _ => []
  | c :: rest, i =>
    { c with
      stdin_redirect := if i = 0 then c.stdin_redirect else none,
      stdout_redirect := if rest.isEmpty then c.stdout_redirect else none } ::
      maskFrom rest (i + 1)

/-- Blank out every redirect field that cannot take effect in a pipeline. -/
def maskPipeline (cmds : List ParsedCommand) : List ParsedCommand :=
  maskFrom cmds 0

/-! ## Tokenizer lemmas -/

/-- `takeWhile` over an append whose first part wholly satisfies `q`. -/
theorem takeWhile_append_all {α : Type} {q : α → Bool} {xs : List α}
    (ys : List α) (h : ∀ x ∈ xs, q x = true) :
    (xs ++ ys).takeWhile q = xs ++ ys.takeWhile q := by
  induction xs with
  | nil => simp
  | cons a xs ih =>
    simp only [List.cons_append, List.takeWhile_cons, h a (by simp)]
    rw [ih (fun x hx => h x (by simp [hx]))]
    simp

/-- `dropWhile` over an append whose first part wholly satisfies `q`. -/
theorem dropWhile_append_all {α : Type} {q : α → Bool} {xs : List α}
    (ys : List α) (h : ∀ x ∈ xs, q x = true) :
    (xs ++ ys).dropWhile q = ys.dropWhile q := by
  induction xs with
  | nil => simp
  | cons a xs ih =>
    simp only [List.cons_append, List.dropWhile_cons, h a (by simp)]
    exact ih (fun x hx => h x (by simp [hx]))

/-- `takeWhile` over an append stops inside the first part when that part
contains an element violating `q`. -/
theorem takeWhile_append_stop {α : Type} {q : α → Bool} {xs : List α}
    (ys : List α) (h : xs.dropWhile q ≠ []) :
    (xs ++ ys).takeWhile q = xs.takeWhile q := by
  induction xs with
  | nil => simp [List.dropWhile] at h
  | cons a xs ih =>
    rw [List.dropWhile_cons] at h
    by_cases hq : q a = true
    · simp only [hq, if_true] at h
      simp only [List.cons_append, List.takeWhile_cons, hq]
      rw [ih h]
    · simp only [List.cons_append, List.takeWhile_cons,
        Bool.not_eq_true _ ▸ hq]
      simp [hq]

/-- `dropWhile` over an append stops inside the first part when that part
contains an element violating `q`. -/
theorem dropWhile_append_stop {α : Type} {q : α → Bool} {xs : List α}
    (ys : List α) (h : xs.dropWhile q ≠ []) :
    (xs ++ ys).dropWhile q = xs.dropWhile q ++ ys := by
  induction xs with
  | nil => simp [List.dropWhile] at h
  | cons a xs ih =>
    rw [List.dropWhile_cons] at h
    by_cases hq : q a = true
    · simp only [hq, if_true] at h
      simp only [List.cons_append, List.dropWhile_cons, hq, if_true]
      exact ih h
    · simp only [List.cons_append, List.dropWhile_cons, hq]
      simp [hq]

/-- Unfolding: no runs in the empty list. -/
theorem maximalRuns_nil (p : Char → Bool) : maximalRuns p [] = [] := by
  rw [maximalRuns.eq_def]

/-- Unfolding: a leading separator is skipped. -/
theorem maximalRuns_cons_pos (p : Char → Bool) (c : Char) (cs : List Char)
    (h : p c = true) : maximalRuns p (c :: cs) = maximalRuns p cs := by
  rw [maximalRuns.eq_def]
  simp [h]

/-- Unfolding: a leading non-separator starts a maximal run. -/
theorem maximalRuns_cons_neg (p : Char → Bool) (c : Char) (cs : List Char)
    (h : ¬p c = true) :
    maximalRuns p (c :: cs) =
      (c :: cs.takeWhile (fun d => !p d)) ::
        maximalRuns p (cs.dropWhile (fun d => !p d)) := by
  rw [maximalRuns.eq_def]
  simp [h]

/-- A list wholly made of separators has no maximal runs. -/
theorem maximalRuns_all (p : Char → Bool) (l : List Char)
    (h : ∀ c ∈ l, p c = true) : maximalRuns p l = [] := by
  induction l with
  | nil => exact maximalRuns_nil p
  | cons c cs ih =>
    rw [maximalRuns_cons_pos p c cs (h c (by simp))]
    exact ih (fun x hx => h x (by simp [hx]))

/-- `takeWhile` of the negated separator predicate on an all-separator list. -/
theorem takeWhile_neg_all (p : Char → Bool) (t : List Char)
    (ht : ∀ c ∈ t, p c = true) : t.takeWhile (fun d => !p d) = [] := by
  cases t with
  | nil => rfl
  | cons a t => simp [List.takeWhile_cons, ht a (by simp)]

/-- `dropWhile` of the negated separator predicate on an all-separator list. -/
theorem dropWhile_neg_all (p : Char → Bool) (t : List Char)
    (ht : ∀ c ∈ t, p c = true) : t.dropWhile (fun d => !p d) = t := by
  cases t with
  | nil => rfl
  | cons a t => simp [List.dropWhile_cons, ht a (by simp)]

/-- Appending trailing separators does not change the maximal runs. -/
theorem maximalRuns_append_sep (p : Char → Bool) (t : List Char)
    (ht : ∀ c ∈ t, p c = true) :
    ∀ l, maximalRuns p (l ++ t) = maximalRuns p l := by
  intro l
  induction l using maximalRuns.induct p with
  | case1 =>
    rw [List.nil_append, maximalRuns_nil, maximalRuns_all p t ht]
  | case2 c cs hp ih =>
    rw [List.cons_append, maximalRuns_cons_pos p c _ hp, ih,
      maximalRuns_cons_pos p c cs hp]
  | case3 c cs hp ih =>
    rw [List.cons_append, maximalRuns_cons_neg p c _ hp,
      maximalRuns_cons_neg p c cs hp]
    by_cases hd : cs.dropWhile (fun d => !p d) = []
    · have hall : ∀ x ∈ cs, (fun d => !p d) x = true :=
        List.dropWhile_eq_nil_iff.mp hd
      rw [takeWhile_append_all t hall, dropWhile_append_all t hall,
        takeWhile_neg_all p t ht, dropWhile_neg_all p t ht,
        maximalRuns_all p t ht, hd, maximalRuns_nil]
      simp [List.takeWhile_eq_self_iff.mpr hall]
    · rw [takeWhile_append_stop t hd, dropWhile_append_stop t hd, ih]

/-- The head of a non-empty `dropWhile` result violates the predicate. -/
theorem dropWhile_head_false {α : Type} (q : α → Bool) :
    ∀ (l : List α) (a : α) (as : List α),
      l.dropWhile q = a :: as → q a = false := by
  intro l
  induction l with
  | nil =>
    intro a as h
    simp [List.dropWhile] at h
  | cons x xs ih =>
    intro a as h
    rw [List.dropWhile_cons] at h
    by_cases hq : q x = true
    · rw [if_pos hq] at h
      exact ih a as h
    · rw [if_neg hq] at h
      injection h with h1 _
      rw [← h1]
      simpa using hq

/-- Splitting on the separator predicate and discarding empty pieces yields
exactly the maximal runs of non-separator characters: Rust's
`split(p).filter(|s| !s.is_empty())` implementation of `split_whitespace`
meets the "maximal runs" specification. -/
theorem splitOnP_filter_eq_maximalRuns (p : Char → Bool) :
    ∀ l : List Char,
      (l.splitOnP p).filter (fun x => !x.isEmpty) = maximalRuns p l := by
  intro l
  induction l using maximalRuns.induct p with
  | case1 => simp [List.splitOnP_nil, maximalRuns_nil]
  | case2 c cs hp ih =>
    rw [List.splitOnP_cons, if_pos hp, maximalRuns_cons_pos p c cs hp]
    simpa using ih
  | case3 c cs hp ih =>
    rw [maximalRuns_cons_neg p c cs hp]
    by_cases hd : cs.dropWhile (fun d => !p d) = []
    · have hall : ∀ x ∈ cs, (fun d => !p d) x = true :=
        List.dropWhile_eq_nil_iff.mp hd
      have hnone : ∀ x ∈ c :: cs, ¬p x = true := by
        intro x hx
        rcases List.mem_cons.mp hx with h1 | h2
        · rw [h1]; exact hp
        · have := hall x h2
          simp at this
          simp [this]
      rw [List.splitOnP_eq_single p _ hnone, hd, maximalRuns_nil,
        List.takeWhile_eq_self_iff.mpr hall]
      simp
    · obtain ⟨sep, as, hsep⟩ :
          ∃ sep as, cs.dropWhile (fun d => !p d) = sep :: as := by
        cases hcase : cs.dropWhile (fun d => !p d) with
        | nil => exact absurd hcase hd
        | cons a b => exact ⟨a, b, rfl⟩
      have hpsep : p sep = true := by
        have := dropWhile_head_false (fun d => !p d) cs sep as hsep
        simpa using this
      have hfirst : ∀ x ∈ c :: cs.takeWhile (fun d => !p d), ¬p x = true := by
        intro x hx
        rcases List.mem_cons.mp hx with h1 | h2
        · rw [h1]; exact hp
        · have := List.mem_takeWhile_imp h2
          simp at this
          simp [this]
      have hsplit : (c :: cs).splitOnP p =
          (c :: cs.takeWhile (fun d => !p d)) :: as.splitOnP p := by
        conv_lhs =>
          rw [show c :: cs =
            (c :: cs.takeWhile (fun d => !p d)) ++ sep :: as by
              rw [List.cons_append]
              congr 1
              conv_lhs =>
                rw [← List.takeWhile_append_dropWhile
                  (p := fun d => !p d) (l := cs)]
              rw [hsep]]
        exact List.splitOnP_first p _ hfirst sep hpsep as
      rw [hsep] at ih
      rw [List.splitOnP_cons, if_pos hpsep, List.filter_cons,
        maximalRuns_cons_pos p sep as hpsep] at ih
      simp only [List.isEmpty_nil, Bool.not_true, Bool.false_eq_true,
        if_false] at ih
      rw [hsplit, hsep, maximalRuns_cons_pos p sep as hpsep, List.filter_cons]
      simp only [List.isEmpty_cons, Bool.not_false, if_true]
      rw [ih]

/-- `split_whitespace` tokenization equals the maximal runs of non-whitespace
characters (for the Unicode `White_Space` predicate the source uses). -/
theorem splitWhitespace_eq_runs (s : String) :
    splitWhitespace s =
      (maximalRuns isRustWhitespace s.data).map (fun l => String.mk l) := by
  unfold splitWhitespace
  rw [splitOnP_filter_eq_maximalRuns]

/-- Dropping leading separators does not change the maximal runs. -/
theorem maximalRuns_dropWhile (p : Char → Bool) (l : List Char) :
    maximalRuns p (l.dropWhile p) = maximalRuns p l := by
  induction l with
  | nil => rfl
  | cons c cs ih =>
    rw [List.dropWhile_cons]
    by_cases hp : p c = true
    · rw [if_pos hp, ih, maximalRuns_cons_pos p c cs hp]
    · rw [if_neg hp]

/-- Any list splits as its right-trimmed part followed by an all-separator
suffix. -/
theorem rtrim_decomp (p : Char → Bool) (x : List Char) :
    x = (x.reverse.dropWhile p).reverse ++ (x.reverse.takeWhile p).reverse ∧
      ∀ c ∈ (x.reverse.takeWhile p).reverse, p c = true := by
  constructor
  · conv_lhs =>
      rw [← x.reverse_reverse,
        ← List.takeWhile_append_dropWhile (p := p) (l := x.reverse)]
    rw [List.reverse_append]
  · intro c hc
    rw [List.mem_reverse] at hc
    exact List.mem_takeWhile_imp hc

/-- Trimming does not change the whitespace tokenization. -/
theorem splitWhitespace_trim (s : String) :
    splitWhitespace (trimStr s) = splitWhitespace s := by
  rw [splitWhitespace_eq_runs, splitWhitespace_eq_runs]
  congr 1
  show maximalRuns isRustWhitespace
      (((s.data.dropWhile isRustWhitespace).reverse.dropWhile
        isRustWhitespace).reverse) =
    maximalRuns isRustWhitespace s.data
  obtain ⟨hdec, hsuf⟩ :=
    rtrim_decomp isRustWhitespace (s.data.dropWhile isRustWhitespace)
  calc maximalRuns isRustWhitespace
        (((s.data.dropWhile isRustWhitespace).reverse.dropWhile
          isRustWhitespace).reverse)
      = maximalRuns isRustWhitespace
          (((s.data.dropWhile isRustWhitespace).reverse.dropWhile
            isRustWhitespace).reverse ++
          ((s.data.dropWhile isRustWhitespace).reverse.takeWhile
            isRustWhitespace).reverse) :=
        (maximalRuns_append_sep isRustWhitespace _ hsuf _).symm
    _ = maximalRuns isRustWhitespace (s.data.dropWhile isRustWhitespace) := by
        rw [← hdec]
    _ = maximalRuns isRustWhitespace s.data :=
        maximalRuns_dropWhile isRustWhitespace s.data

/-- There are no maximal runs exactly when everything is a separator. -/
theorem maximalRuns_eq_nil_iff (p : Char → Bool) (l : List Char) :
    maximalRuns p l = [] ↔ ∀ c ∈ l, p c = true := by
  constructor
  · induction l with
    | nil => simp
    | cons c cs ih =>
      intro h
      by_cases hp : p c = true
      · rw [maximalRuns_cons_pos p c cs hp] at h
        intro x hx
        rcases List.mem_cons.mp hx with h1 | h2
        · rw [h1]; exact hp
        · exact ih h x h2
      · rw [maximalRuns_cons_neg p c cs hp] at h
        exact absurd h (by simp)
  · exact maximalRuns_all p l

/-- The trimmed string is empty exactly when the whole string is
whitespace. -/
theorem trimStr_eq_empty_iff (s : String) :
    trimStr s = "" ↔ ∀ c ∈ s.data, isRustWhitespace c = true := by
  constructor
  · intro h
    have hx : ((s.data.dropWhile isRustWhitespace).reverse.dropWhile
        isRustWhitespace).reverse = [] := congrArg String.data h
    rw [List.reverse_eq_nil_iff] at hx
    have hall := List.dropWhile_eq_nil_iff.mp hx
    have hl1 : ∀ c ∈ s.data.dropWhile isRustWhitespace,
        isRustWhitespace c = true := by
      intro c hc
      exact hall c (List.mem_reverse.mpr hc)
    intro c hc
    rw [← List.takeWhile_append_dropWhile (p := isRustWhitespace)
      (l := s.data)] at hc
    rcases List.mem_append.mp hc with h1 | h2
    · exact List.mem_takeWhile_imp h1
    · exact hl1 c h2
  · intro h
    unfold trimStr
    rw [List.dropWhile_eq_nil_iff.mpr h]
    rfl

/-- The token list is empty exactly when the segment trims to empty. -/
theorem splitWhitespace_eq_nil_iff (s : String) :
    splitWhitespace s = [] ↔ trimStr s = "" := by
  rw [splitWhitespace_eq_runs, trimStr_eq_empty_iff]
  constructor
  · intro h
    apply (maximalRuns_eq_nil_iff isRustWhitespace s.data).mp
    cases hcase : maximalRuns isRustWhitespace s.data with
    | nil => rfl
    | cons a b => rw [hcase] at h; exact absurd h (by simp)
  · intro h
    rw [(maximalRuns_eq_nil_iff isRustWhitespace s.data).mpr h]
    rfl

/-- Every maximal run is non-empty. -/
theorem maximalRuns_mem_ne_nil (p : Char → Bool) :
    ∀ l r, r ∈ maximalRuns p l → r ≠ [] := by
  intro l
  induction l using maximalRuns.induct p with
  | case1 => simp [maximalRuns_nil]
  | case2 c cs hp ih =>
    rw [maximalRuns_cons_pos p c cs hp]
    exact ih
  | case3 c cs hp ih =>
    rw [maximalRuns_cons_neg p c cs hp]
    intro r hr
    rcases List.mem_cons.mp hr with h1 | h2
    · rw [h1]; simp
    · exact ih r h2

/-- Every whitespace token is a non-empty string. -/
theorem splitWhitespace_mem_ne_empty (s : String) :
    ∀ t ∈ splitWhitespace s, t ≠ "" := by
  rw [splitWhitespace_eq_runs]
  intro t ht
  rw [List.mem_map] at ht
  obtain ⟨r, hr, hmk⟩ := ht
  have hne : r ≠ [] := maximalRuns_mem_ne_nil isRustWhitespace s.data r hr
  intro hcontra
  apply hne
  have : r = ("" : String).data := by
    rw [← hcontra, ← hmk]
  exact this

/-! ## Scan lemmas -/

/-- `selectArgs` on matching conses keeps exactly the `arg`-role token. -/
theorem selectArgs_cons (t : String) (ts : List String) (r : TokenRole)
    (rs : List TokenRole) :
    selectArgs (t :: ts) (r :: rs) =
      if r = TokenRole.arg then t :: selectArgs ts rs else selectArgs ts rs := by
  by_cases hr : r = TokenRole.arg
  · simp [selectArgs, List.filterMap_cons, hr]
  · simp [selectArgs, List.filterMap_cons, hr]

/-- The selected arguments form a sublist of the tokens (so their relative
left-to-right order is preserved). -/
theorem selectArgs_sublist :
    ∀ (ts : List String) (rs : List TokenRole), (selectArgs ts rs).Sublist ts := by
  intro ts
  induction ts with
  | nil =>
    intro rs
    simp [selectArgs]
  | cons t ts ih =>
    intro rs
    cases rs with
    | nil => simp [selectArgs]
    | cons r rs =>
      rw [selectArgs_cons]
      by_cases hr : r = TokenRole.arg
      · rw [if_pos hr]
        exact (ih rs).cons₂ t
      · rw [if_neg hr]
        exact (ih rs).cons t

/-- A successful scan classifies every token: each one is an argument or
exactly one half of an operator–path pair, and the accumulated `args` extends
the initial ones with exactly the `arg`-role tokens in order. -/
theorem scan_classify :
    ∀ (tokens : List String) (st st' : ScanState),
      scanTokens tokens st = .ok st' →
      ∃ roles, classifyTokens tokens = some roles ∧
        roles.length = tokens.length ∧ rolesWF roles = true ∧
        st'.args = st.args ++ selectArgs tokens roles := by
  intro tokens st
  induction tokens, st using scanTokens.induct with
  | case1 st =>
    intro st' h
    simp [scanTokens] at h
    refine ⟨[], rfl, rfl, rfl, ?_⟩
    simp [selectArgs, h]
  | case2 st path rest' ih =>
    intro st' h
    simp only [scanTokens] at h
    obtain ⟨roles', hc, hl, hwf, ha⟩ := ih st' h
    refine ⟨.op :: .target :: roles', ?_, ?_, ?_, ?_⟩
    · simp [classifyTokens, isOpTok, hc]
    · simp [hl]
    · simpa [rolesWF] using hwf
    · rw [ha]
      simp [selectArgs_cons]
  | case3 st =>
    intro st' h
    simp [scanTokens] at h
  | case4 st path rest' hne ih =>
    intro st' h
    simp only [scanTokens] at h
    obtain ⟨roles', hc, hl, hwf, ha⟩ := ih st' h
    refine ⟨.op :: .target :: roles', ?_, ?_, ?_, ?_⟩
    · simp [classifyTokens, isOpTok, hc]
    · simp [hl]
    · simpa [rolesWF] using hwf
    · rw [ha]
      simp [selectArgs_cons]
  | case5 st hne =>
    intro st' h
    simp [scanTokens] at h
  | case6 st path rest' hne1 hne2 ih =>
    intro st' h
    simp only [scanTokens] at h
    obtain ⟨roles', hc, hl, hwf, ha⟩ := ih st' h
    refine ⟨.op :: .target :: roles', ?_, ?_, ?_, ?_⟩
    · simp [classifyTokens, isOpTok, hc]
    · simp [hl]
    · simpa [rolesWF] using hwf
    · rw [ha]
      simp [selectArgs_cons]
  | case7 st hne1 hne2 =>
    intro st' h
    simp [scanTokens] at h
  | case8 st path rest' hne1 hne2 hne3 ih =>
    intro st' h
    simp only [scanTokens] at h
    obtain ⟨roles', hc, hl, hwf, ha⟩ := ih st' h
    refine ⟨.op :: .target :: roles', ?_, ?_, ?_, ?_⟩
    · simp [classifyTokens, isOpTok, hc]
    · simp [hl]
    · simpa [rolesWF] using hwf
    · rw [ha]
      simp [selectArgs_cons]
  | case9 st hne1 hne2 hne3 =>
    intro st' h
    simp [scanTokens] at h
  | case10 tok rest st hne1 hne2 hne3 hne4 ih =>
    intro st' h
    rw [scanTokens.eq_def] at h
    simp only [if_neg hne1, if_neg hne2, if_neg hne3, if_neg hne4] at h
    obtain ⟨roles', hc, hl, hwf, ha⟩ := ih st' h
    have hop : isOpTok tok = false := by
      simp [isOpTok, hne1, hne2, hne3, hne4]
    refine ⟨.arg :: roles', ?_, ?_, ?_, ?_⟩
    · rw [classifyTokens.eq_def]
      simp [hop, hc]
    · simp [hl]
    · simpa [rolesWF] using hwf
    · rw [ha]
      simp [selectArgs_cons]

/-- A successful scan consumes a definite list of operator–path pairs, and
each redirect field of the final state is the last-write-wins fold of those
pairs over the initial state: only the last relevant occurrence takes
effect. -/
theorem scan_lastwins :
    ∀ (tokens : List String) (st st' : ScanState),
      scanTokens tokens st = .ok st' →
      ∃ ps, redirectPairs tokens = some ps ∧
        st'.stdin_redirect = ps.foldl stdinStep st.stdin_redirect ∧
        st'.stdout_redirect = ps.foldl stdoutStep st.stdout_redirect ∧
        st'.stderr_redirect = ps.foldl stderrStep st.stderr_redirect := by
  intro tokens st
  induction tokens, st using scanTokens.induct with
  | case1 st =>
    intro st' h
    simp [scanTokens] at h
    exact ⟨[], rfl, by simp [h], by simp [h], by simp [h]⟩
  | case2 st path rest' ih =>
    intro st' h
    simp only [scanTokens] at h
    obtain ⟨ps', hp, h1, h2, h3⟩ := ih st' h
    refine ⟨("<", path) :: ps', ?_, ?_, ?_, ?_⟩
    · simp [redirectPairs, isOpTok, hp]
    · rw [List.foldl_cons]
      simpa [stdinStep] using h1
    · rw [List.foldl_cons]
      simpa [stdoutStep] using h2
    · rw [List.foldl_cons]
      simpa [stderrStep] using h3
  | case3 st =>
    intro st' h
    simp [scanTokens] at h
  | case4 st path rest' hne ih =>
    intro st' h
    simp only [scanTokens] at h
    obtain ⟨ps', hp, h1, h2, h3⟩ := ih st' h
    refine ⟨(">", path) :: ps', ?_, ?_, ?_, ?_⟩
    · simp [redirectPairs, isOpTok, hp]
    · rw [List.foldl_cons]
      simpa [stdinStep] using h1
    · rw [List.foldl_cons]
      simpa [stdoutStep] using h2
    · rw [List.foldl_cons]
      simpa [stderrStep] using h3
  | case5 st hne =>
    intro st' h
    simp [scanTokens] at h
  | case6 st path rest' hne1 hne2 ih =>
    intro st' h
    simp only [scanTokens] at h
    obtain ⟨ps', hp, h1, h2, h3⟩ := ih st' h
    refine ⟨(">>", path) :: ps', ?_, ?_, ?_, ?_⟩
    · simp [redirectPairs, isOpTok, hp]
    · rw [List.foldl_cons]
      simpa [stdinStep] using h1
    · rw [List.foldl_cons]
      simpa [stdoutStep] using h2
    · rw [List.foldl_cons]
      simpa [stderrStep] using h3
  | case7 st hne1 hne2 =>
    intro st' h
    simp [scanTokens] at h
  | case8 st path rest' hne1 hne2 hne3 ih =>
    intro st' h
    simp only [scanTokens] at h
    obtain ⟨ps', hp, h1, h2, h3⟩ := ih st' h
    refine ⟨("2>", path) :: ps', ?_, ?_, ?_, ?_⟩
    · simp [redirectPairs, isOpTok, hp]
    · rw [List.foldl_cons]
      simpa [stdinStep] using h1
    · rw [List.foldl_cons]
      simpa [stdoutStep] using h2
    · rw [List.foldl_cons]
      simpa [stderrStep] using h3
  | case9 st hne1 hne2 hne3 =>
    intro st' h
    simp [scanTokens] at h
  | case10 tok rest st hne1 hne2 hne3 hne4 ih =>
    intro st' h
    rw [scanTokens.eq_def] at h
    simp only [if_neg hne1, if_neg hne2, if_neg hne3, if_neg hne4] at h
    obtain ⟨ps', hp, h1, h2, h3⟩ := ih st' h
    have hop : isOpTok tok = false := by
      simp [isOpTok, hne1, hne2, hne3, hne4]
    refine ⟨ps', ?_, ?_, ?_, ?_⟩
    · rw [redirectPairs.eq_def]
      simp [hop, hp]
    · simpa using h1
    · simpa using h2
    · simpa using h3

/-- A scan that succeeds on a token list continues on appended tokens from
the state it reached. -/
theorem scan_append :
    ∀ (tokens : List String) (st st' : ScanState),
      scanTokens tokens st = .ok st' →
      ∀ more, scanTokens (tokens ++ more) st = scanTokens more st' := by
  intro tokens st
  induction tokens, st using scanTokens.induct with
  | case1 st =>
    intro st' h more
    simp [scanTokens] at h
    rw [List.nil_append, h]
  | case2 st path rest' ih =>
    intro st' h more
    simp only [scanTokens] at h
    rw [List.cons_append, List.cons_append]
    simp only [scanTokens]
    exact ih st' h more
  | case3 st =>
    intro st' h more
    simp [scanTokens] at h
  | case4 st path rest' hne ih =>
    intro st' h more
    simp only [scanTokens] at h
    rw [List.cons_append, List.cons_append]
    simp only [scanTokens]
    exact ih st' h more
  | case5 st hne =>
    intro st' h more
    simp [scanTokens] at h
  | case6 st path rest' hne1 hne2 ih =>
    intro st' h more
    simp only [scanTokens] at h
    rw [List.cons_append, List.cons_append]
    simp only [scanTokens]
    exact ih st' h more
  | case7 st hne1 hne2 =>
    intro st' h more
    simp [scanTokens] at h
  | case8 st path rest' hne1 hne2 hne3 ih =>
    intro st' h more
    simp only [scanTokens] at h
    rw [List.cons_append, List.cons_append]
    simp only [scanTokens]
    exact ih st' h more
  | case9 st hne1 hne2 hne3 =>
    intro st' h more
    simp [scanTokens] at h
  | case10 tok rest st hne1 hne2 hne3 hne4 ih =>
    intro st' h more
    rw [scanTokens.eq_def] at h
    simp only [if_neg hne1, if_neg hne2, if_neg hne3, if_neg hne4] at h
    rw [List.cons_append, scanTokens.eq_def]
    simp only [if_neg hne1, if_neg hne2, if_neg hne3, if_neg hne4]
    exact ih st' h more

/-- Scanning a lone reserved operator fails with its missing-target
message. -/
theorem scan_trailing_op (op : String) (hop : isOpTok op = true)
    (st : ScanState) : scanTokens [op] st = .error (missingTargetMsg op) := by
  have h4 : ((op = "<" ∨ op = ">") ∨ op = ">>") ∨ op = "2>" := by
    simpa [isOpTok] using hop
  rcases h4 with ((h | h) | h) | h <;> rw [h] <;> rfl

/-- Every error the scan can produce is one of the four missing-target
messages. -/
theorem scan_error_msgs :
    ∀ (tokens : List String) (st : ScanState) (e : String),
      scanTokens tokens st = .error e →
      e = missingTargetMsg "<" ∨ e = missingTargetMsg ">" ∨
        e = missingTargetMsg ">>" ∨ e = missingTargetMsg "2>" := by
  intro tokens st
  induction tokens, st using scanTokens.induct with
  | case1 st =>
    intro e h
    simp [scanTokens] at h
  | case2 st path rest' ih =>
    intro e h
    simp only [scanTokens] at h
    exact ih e h
  | case3 st =>
    intro e h
    simp [scanTokens] at h
    subst h
    exact Or.inl rfl
  | case4 st path rest' hne ih =>
    intro e h
    simp only [scanTokens] at h
    exact ih e h
  | case5 st hne =>
    intro e h
    simp [scanTokens] at h
    subst h
    exact Or.inr (Or.inl rfl)
  | case6 st path rest' hne1 hne2 ih =>
    intro e h
    simp only [scanTokens] at h
    exact ih e h
  | case7 st hne1 hne2 =>
    intro e h
    simp [scanTokens] at h
    subst h
    exact Or.inr (Or.inr (Or.inl rfl))
  | case8 st path rest' hne1 hne2 hne3 ih =>
    intro e h
    simp only [scanTokens] at h
    exact ih e h
  | case9 st hne1 hne2 hne3 =>
    intro e h
    simp [scanTokens] at h
    subst h
    exact Or.inr (Or.inr (Or.inr rfl))
  | case10 tok rest st hne1 hne2 hne3 hne4 ih =>
    intro e h
    rw [scanTokens.eq_def] at h
    simp only [if_neg hne1, if_neg hne2, if_neg hne3, if_neg hne4] at h
    exact ih e h

/-! ## Parse-level lemmas -/

/-- Trimming a segment does not change the result of
`parse_single_command` (tokenization already ignores surrounding
whitespace). -/
theorem parse_single_command_trim (s : String) :
    parse_single_command (trimStr s) = parse_single_command s := by
  unfold parse_single_command
  rw [splitWhitespace_trim]

/-- A successfully parsed command has a non-empty name. -/
theorem parse_single_command_name_ne (s : String) (cmd : ParsedCommand)
    (h : parse_single_command s = .ok cmd) : cmd.name ≠ "" := by
  unfold parse_single_command at h
  cases htok : splitWhitespace s with
  | nil =>
    rw [htok] at h
    exact Except.noConfusion h
  | cons name rest =>
    simp only [htok] at h
    cases hscan : scanTokens rest initScan with
    | error e =>
      simp only [hscan] at h
      exact Except.noConfusion h
    | ok st =>
      simp only [hscan] at h
      injection h with h1
      rw [← h1]
      exact splitWhitespace_mem_ne_empty s name (htok ▸ List.mem_cons_self name rest)

/-- When a segment has at least one token, a `parse_single_command` failure
is never the empty-command error. -/
theorem parse_single_command_error_ne (s : String) (e : String)
    (hne : splitWhitespace s ≠ [])
    (h : parse_single_command s = .error e) : e ≠ emptyCommandMsg := by
  unfold parse_single_command at h
  cases htok : splitWhitespace s with
  | nil => exact absurd htok hne
  | cons name rest =>
    simp only [htok] at h
    cases hscan : scanTokens rest initScan with
    | error e' =>
      simp only [hscan] at h
      injection h with h1
      rw [← h1]
      rcases scan_error_msgs rest initScan e' hscan with h2 | h2 | h2 | h2 <;>
        rw [h2] <;> decide
    | ok st =>
      simp only [hscan] at h
      exact Except.noConfusion h

/-- Successful segment parsing appends one command per segment, each produced
by `parse_single_command` on a trimmed segment. -/
theorem parseSegments_ok :
    ∀ (segs : List String) (acc out : List ParsedCommand),
      parseSegments segs acc = .ok out →
      out.length = acc.length + segs.length ∧
        ∀ c ∈ out, c ∈ acc ∨
          ∃ seg ∈ segs, parse_single_command (trimStr seg) = .ok c := by
  intro segs
  induction segs with
  | nil =>
    intro acc out h
    simp [parseSegments] at h
    rw [← h]
    simp
  | cons seg rest ih =>
    intro acc out h
    by_cases htr : trimStr seg = ""
    · simp [parseSegments, htr] at h
    · cases hp : parse_single_command (trimStr seg) with
      | error e => simp [parseSegments, htr, hp] at h
      | ok c =>
        have h' : parseSegments rest (acc ++ [c]) = .ok out := by
          simpa [parseSegments, htr, hp] using h
        obtain ⟨hlen, hmem⟩ := ih (acc ++ [c]) out h'
        constructor
        · simp at hlen
          simp [hlen]
          omega
        · intro x hx
          rcases hmem x hx with hin | ⟨s', hs', hps'⟩
          · rcases List.mem_append.mp hin with h1 | h2
            · exact Or.inl h1
            · simp at h2
              exact Or.inr ⟨seg, by simp, h2 ▸ hp⟩
          · exact Or.inr ⟨s', List.mem_cons_of_mem _ hs', hps'⟩

/-- Segment parsing never produces the empty-command error: whitespace-only
segments are rejected as empty pipeline stages first, and any other segment
has at least one token. -/
theorem parseSegments_error_ne :
    ∀ (segs : List String) (acc : List ParsedCommand) (e : String),
      parseSegments segs acc = .error e → e ≠ emptyCommandMsg := by
  intro segs
  induction segs with
  | nil =>
    intro acc e h
    simp [parseSegments] at h
  | cons seg rest ih =>
    intro acc e h
    by_cases htr : trimStr seg = ""
    · have h' := h
      simp [parseSegments, htr] at h'
      cases h'
      decide
    · cases hp : parse_single_command (trimStr seg) with
      | error e' =>
        have h' := h
        simp [parseSegments, htr, hp] at h'
        have hne : splitWhitespace (trimStr seg) ≠ [] := by
          rw [splitWhitespace_trim, Ne, splitWhitespace_eq_nil_iff]
          exact htr
        cases h'
        exact parse_single_command_error_ne (trimStr seg) _ hne hp
      | ok c =>
        have h' : parseSegments rest (acc ++ [c]) = .error e := by
          simpa [parseSegments, htr, hp] using h
        exact ih (acc ++ [c]) e h'

/-- When every segment before the first empty-trimming one parses, the loop
reaches that segment and fails with the empty-pipeline-stage error. -/
theorem parseSegments_first_empty :
    ∀ (pre : List String) (seg : String) (post : List String)
      (acc : List ParsedCommand),
      trimStr seg = "" →
      (∀ s ∈ pre, ∃ c, parse_single_command (trimStr s) = .ok c) →
      parseSegments (pre ++ seg :: post) acc = .error emptyStageMsg := by
  intro pre
  induction pre with
  | nil =>
    intro seg post acc hseg hpre
    simp [parseSegments, hseg]
    rfl
  | cons s pre ih =>
    intro seg post acc hseg hpre
    obtain ⟨c, hc⟩ := hpre s (by simp)
    have hs : trimStr s ≠ "" := by
      intro hcontra
      rw [hcontra] at hc
      rw [show parse_single_command "" = .error emptyCommandMsg from rfl] at hc
      exact Except.noConfusion hc
    rw [List.cons_append]
    have hstep : parseSegments (s :: (pre ++ seg :: post)) acc =
        parseSegments (pre ++ seg :: post) (acc ++ [c]) := by
      simp [parseSegments, hs, hc]
    rw [hstep]
    exact ih seg post (acc ++ [c]) hseg (fun s' hs' => hpre s' (by simp [hs']))

/-- The pipe split always yields at least one segment. -/
theorem splitPipe_ne_nil (s : String) : splitPipe s ≠ [] := by
  unfold splitPipe
  intro h
  rw [List.map_eq_nil_iff] at h
  exact List.splitOnP_ne_nil _ s.data h

/-- A line without the pipe character is a single segment. -/
theorem splitPipe_no_pipe (s : String) (h : ∀ c ∈ s.data, ¬c = '|') :
    splitPipe s = [s] := by
  unfold splitPipe
  rw [List.splitOnP_eq_single _ _ (by intro x hx; simpa using h x hx)]
  rfl

/-! ## Executor lemmas -/

/-- Membership in `killAll`: every element is a killed copy of an input
element with the same stage and wiring. -/
theorem killAll_mem (calls : List SpawnCall) (c : SpawnCall)
    (h : c ∈ killAll calls) :
    c.status = .killed ∧ ∃ c₀ ∈ calls, c.stage = c₀.stage := by
  unfold killAll at h
  obtain ⟨c₀, hc₀, heq⟩ := List.mem_map.mp h
  constructor
  · rw [← heq]
  · exact ⟨c₀, hc₀, by rw [← heq]⟩

/-- Membership in `waitAll`: every element is an exited copy of an input
element. -/
theorem waitAll_mem (calls : List SpawnCall) (c : SpawnCall)
    (h : c ∈ waitAll calls) : c.status = .exited := by
  unfold waitAll at h
  obtain ⟨c₀, hc₀, heq⟩ := List.mem_map.mp h
  rw [← heq]

/-- If the stage loop reports a failure at stage `j`, then every logged
process has been force-killed and belongs to a stage before `j`, and exactly
the stages up to and including `j` were attempted. -/
theorem runStages_failedAt (env : Env) :
    ∀ (rest : List ParsedCommand) (i : Nat) (prevOut : Bool)
      (calls : List SpawnCall) (attempted : List Nat) (r : ExecResult)
      (j : Nat) (f : ExecFailure),
      (∀ c ∈ calls, c.status = .running ∧ c.stage < i) →
      runStages env rest i prevOut calls attempted = r →
      r.failedAt = some (j, f) →
      i ≤ j ∧ (∀ c ∈ r.calls, c.status = .killed ∧ c.stage < j) ∧
        r.attempted = attempted ++ List.range' i (j + 1 - i) := by
  intro rest
  induction rest with
  | nil =>
    intro i prevOut calls attempted r j f hc hr hfail
    rw [← hr] at hfail
    simp [runStages] at hfail
  | cons cmd rest ih =>
    intro i prevOut calls attempted r j f hc hr hfail
    rw [runStages.eq_def] at hr
    simp only [] at hr
    cases hin : wireStdin env cmd i prevOut with
    | error fl =>
      rw [hin] at hr
      simp only [] at hr
      rw [← hr] at hfail ⊢
      simp only [] at hfail ⊢
      injection hfail with hj
      injection hj with hj1 hj2
      refine ⟨by omega, ?_, ?_⟩
      · intro c hcm
        obtain ⟨hk, c₀, hc₀, hst⟩ := killAll_mem calls c hcm
        exact ⟨hk, by rw [hst, ← hj1]; exact (hc c₀ hc₀).2⟩
      · rw [← hj1]
        simp
    | ok sin =>
      rw [hin] at hr
      simp only [] at hr
      cases hout : wireStdout env cmd rest.isEmpty with
      | error fl =>
        rw [hout] at hr
        simp only [] at hr
        rw [← hr] at hfail ⊢
        simp only [] at hfail ⊢
        injection hfail with hj
        injection hj with hj1 hj2
        refine ⟨by omega, ?_, ?_⟩
        · intro c hcm
          obtain ⟨hk, c₀, hc₀, hst⟩ := killAll_mem calls c hcm
          exact ⟨hk, by rw [hst, ← hj1]; exact (hc c₀ hc₀).2⟩
        · rw [← hj1]
          simp
      | ok sout =>
        rw [hout] at hr
        simp only [] at hr
        cases herr : wireStderr env cmd with
        | error fl =>
          rw [herr] at hr
          simp only [] at hr
          rw [← hr] at hfail ⊢
          simp only [] at hfail ⊢
          injection hfail with hj
          injection hj with hj1 hj2
          refine ⟨by omega, ?_, ?_⟩
          · intro c hcm
            obtain ⟨hk, c₀, hc₀, hst⟩ := killAll_mem calls c hcm
            exact ⟨hk, by rw [hst, ← hj1]; exact (hc c₀ hc₀).2⟩
          · rw [← hj1]
            simp
        | ok serr =>
          rw [herr] at hr
          simp only [] at hr
          by_cases hspawn : env.spawnOk cmd.name = true
          · rw [if_pos hspawn] at hr
            have hc' : ∀ c ∈ calls ++
                [⟨i, cmd.name, cmd.args, sin, sout, serr, .running⟩],
                c.status = .running ∧ c.stage < i + 1 := by
              intro c hcm
              rcases List.mem_append.mp hcm with h1 | h2
              · exact ⟨(hc c h1).1, Nat.lt_succ_of_lt (hc c h1).2⟩
              · simp at h2
                rw [h2]
                exact ⟨rfl, Nat.lt_succ_self i⟩
            obtain ⟨h1, h2, h3⟩ := ih (i + 1) (!rest.isEmpty) _ _ r j f hc' hr hfail
            refine ⟨by omega, h2, ?_⟩
            rw [h3]
            have hli : j + 1 - i = (j - i) + 1 := by omega
            have hlj : j + 1 - (i + 1) = j - i := by omega
            rw [hli, hlj, List.range'_succ]
            simp
          · rw [if_neg hspawn] at hr
            rw [← hr] at hfail ⊢
            simp only [] at hfail ⊢
            injection hfail with hj
            injection hj with hj1 hj2
            refine ⟨by omega, ?_, ?_⟩
            · intro c hcm
              obtain ⟨hk, c₀, hc₀, hst⟩ := killAll_mem calls c hcm
              exact ⟨hk, by rw [hst, ← hj1]; exact (hc c₀ hc₀).2⟩
            · rw [← hj1]
              simp

/-- After the stage loop returns, no logged process is still running: each
was either force-killed on the failure path or waited on. -/
theorem runStages_no_running (env : Env) :
    ∀ (rest : List ParsedCommand) (i : Nat) (prevOut : Bool)
      (calls : List SpawnCall) (attempted : List Nat) (r : ExecResult),
      runStages env rest i prevOut calls attempted = r →
      ∀ c ∈ r.calls, c.status = .killed ∨ c.status = .exited := by
  intro rest
  induction rest with
  | nil =>
    intro i prevOut calls attempted r hr c hcm
    rw [← hr] at hcm
    simp only [runStages] at hcm
    exact Or.inr (waitAll_mem calls c hcm)
  | cons cmd rest ih =>
    intro i prevOut calls attempted r hr c hcm
    rw [runStages.eq_def] at hr
    simp only [] at hr
    cases hin : wireStdin env cmd i prevOut with
    | error fl =>
      rw [hin] at hr
      simp only [] at hr
      rw [← hr] at hcm
      exact Or.inl (killAll_mem calls c hcm).1
    | ok sin =>
      rw [hin] at hr
      simp only [] at hr
      cases hout : wireStdout env cmd rest.isEmpty with
      | error fl =>
        rw [hout] at hr
        simp only [] at hr
        rw [← hr] at hcm
        exact Or.inl (killAll_mem calls c hcm).1
      | ok sout =>
        rw [hout] at hr
        simp only [] at hr
        cases herr : wireStderr env cmd with
        | error fl =>
          rw [herr] at hr
          simp only [] at hr
          rw [← hr] at hcm
          exact Or.inl (killAll_mem calls c hcm).1
        | ok serr =>
          rw [herr] at hr
          simp only [] at hr
          by_cases hspawn : env.spawnOk cmd.name = true
          · rw [if_pos hspawn] at hr
            exact ih (i + 1) (!rest.isEmpty) _ _ r hr c hcm
          · rw [if_neg hspawn] at hr
            rw [← hr] at hcm
            exact Or.inl (killAll_mem calls c hcm).1

/-- Strengthened membership in `killAll`: the element is an input element
with only its status changed. -/
theorem killAll_mem_eq (calls : List SpawnCall) (c : SpawnCall)
    (h : c ∈ killAll calls) :
    ∃ c₀ ∈ calls, c = { c₀ with status := .killed } := by
  unfold killAll at h
  obtain ⟨c₀, hc₀, heq⟩ := List.mem_map.mp h
  exact ⟨c₀, hc₀, heq.symm⟩

/-- Strengthened membership in `waitAll`: the element is an input element
with only its status changed. -/
theorem waitAll_mem_eq (calls : List SpawnCall) (c : SpawnCall)
    (h : c ∈ waitAll calls) :
    ∃ c₀ ∈ calls, c = { c₀ with status := .exited } := by
  unfold waitAll at h
  obtain ⟨c₀, hc₀, heq⟩ := List.mem_map.mp h
  exact ⟨c₀, hc₀, heq.symm⟩

/-- Masking preserves emptiness. -/
theorem maskFrom_isEmpty (l : List ParsedCommand) (i : Nat) :
    (maskFrom l i).isEmpty = l.isEmpty := by
  cases l <;> rfl

/-- The stdin wiring only reads `stdin_redirect` at stage 0 with no pending
pipe. -/
theorem wireStdin_irrel (env : Env) (cmd cmd' : ParsedCommand) (i : Nat)
    (prevOut : Bool)
    (hfield : i = 0 → cmd'.stdin_redirect = cmd.stdin_redirect)
    (h : i ≠ 0 → prevOut = true) :
    wireStdin env cmd' i prevOut = wireStdin env cmd i prevOut := by
  unfold wireStdin
  by_cases hprev : prevOut = true
  · simp [hprev]
  · have hi : i = 0 := by
      by_contra hi
      exact hprev (h hi)
    simp [hi, hfield hi]

/-- The stdout wiring only reads `stdout_redirect` on the last stage. -/
theorem wireStdout_irrel (env : Env) (cmd cmd' : ParsedCommand)
    (isLast : Bool)
    (hfield : isLast = true → cmd'.stdout_redirect = cmd.stdout_redirect) :
    wireStdout env cmd' isLast = wireStdout env cmd isLast := by
  unfold wireStdout
  by_cases hlast : isLast = true
  · simp [hlast, hfield hlast]
  · rw [Bool.not_eq_true] at hlast
    simp [hlast]

/-- The stderr wiring depends only on `stderr_redirect`. -/
theorem wireStderr_irrel (env : Env) (cmd cmd' : ParsedCommand)
    (hfield : cmd'.stderr_redirect = cmd.stderr_redirect) :
    wireStderr env cmd' = wireStderr env cmd := by
  unfold wireStderr
  rw [hfield]

/-- With a pending pipe, stdin wiring always succeeds as a pipe handoff. -/
theorem wireStdin_prev (env : Env) (cmd : ParsedCommand) (i : Nat) :
    wireStdin env cmd i true = .ok .pipeFromPrev := rfl

/-- A non-last stage's stdout wiring always succeeds as a pipe. -/
theorem wireStdout_piped (env : Env) (cmd : ParsedCommand) :
    wireStdout env cmd false = .ok .piped := rfl

/-- Blanking the redirect fields that cannot take effect (stdin after stage
0, stdout before the last stage) does not change the run at all. -/
theorem runStages_mask (env : Env) :
    ∀ (rest : List ParsedCommand) (i : Nat) (prevOut : Bool)
      (calls : List SpawnCall) (attempted : List Nat),
      (i ≠ 0 → prevOut = true) →
      runStages env (maskFrom rest i) i prevOut calls attempted =
        runStages env rest i prevOut calls attempted := by
  intro rest
  induction rest with
  | nil =>
    intro i prevOut calls attempted h
    rfl
  | cons cmd rest ih =>
    intro i prevOut calls attempted h
    have hstep : maskFrom (cmd :: rest) i =
        { cmd with
          stdin_redirect := if i = 0 then cmd.stdin_redirect else none,
          stdout_redirect :=
            if rest.isEmpty then cmd.stdout_redirect else none } ::
          maskFrom rest (i + 1) := rfl
    rw [hstep]
    conv_lhs => rw [runStages.eq_def]
    conv_rhs => rw [runStages.eq_def]
    simp only []
    rw [wireStdin_irrel env cmd _ i prevOut (fun hi => by simp [hi]) h,
      maskFrom_isEmpty,
      wireStdout_irrel env cmd _ rest.isEmpty (fun hl => by simp [hl]),
      wireStderr_irrel env cmd _ (by simp)]
    cases wireStdin env cmd i prevOut with
    | error fl => rfl
    | ok sin =>
      cases wireStdout env cmd rest.isEmpty with
      | error fl => rfl
      | ok sout =>
        cases wireStderr env cmd with
        | error fl => rfl
        | ok serr =>
          simp only []
          by_cases hspawn : env.spawnOk cmd.name = true
          · rw [if_pos hspawn, if_pos hspawn]
            by_cases hrest : rest.isEmpty = true
            · have : rest = [] := List.isEmpty_iff.mp hrest
              rw [this]
              rfl
            · exact ih (i + 1) _ _ _ (fun _ => by simp [hrest])
          · rw [if_neg hspawn, if_neg hspawn]

/-- In the result log, every stage after the first received its stdin from
the previous stage's pipe, and every stage before the last had its stdout
captured as a pipe. -/
theorem runStages_wiring (env : Env) (n : Nat) :
    ∀ (rest : List ParsedCommand) (i : Nat) (prevOut : Bool)
      (calls : List SpawnCall) (attempted : List Nat) (r : ExecResult),
      n = i + rest.length →
      (i ≠ 0 → prevOut = true) →
      (∀ c ∈ calls, (0 < c.stage → c.stdin = .pipeFromPrev) ∧
        (c.stage + 1 < n → c.stdout = .piped)) →
      runStages env rest i prevOut calls attempted = r →
      ∀ c ∈ r.calls, (0 < c.stage → c.stdin = .pipeFromPrev) ∧
        (c.stage + 1 < n → c.stdout = .piped) := by
  intro rest
  induction rest with
  | nil =>
    intro i prevOut calls attempted r hn h hc hr c hcm
    rw [← hr] at hcm
    simp only [runStages] at hcm
    obtain ⟨c₀, hc₀, heq⟩ := waitAll_mem_eq calls c hcm
    rw [heq]
    exact hc c₀ hc₀
  | cons cmd rest ih =>
    intro i prevOut calls attempted r hn h hc hr c hcm
    rw [runStages.eq_def] at hr
    simp only [] at hr
    cases hin : wireStdin env cmd i prevOut with
    | error fl =>
      rw [hin] at hr
      simp only [] at hr
      rw [← hr] at hcm
      obtain ⟨c₀, hc₀, heq⟩ := killAll_mem_eq calls c hcm
      rw [heq]
      exact hc c₀ hc₀
    | ok sin =>
      rw [hin] at hr
      simp only [] at hr
      cases hout : wireStdout env cmd rest.isEmpty with
      | error fl =>
        rw [hout] at hr
        simp only [] at hr
        rw [← hr] at hcm
        obtain ⟨c₀, hc₀, heq⟩ := killAll_mem_eq calls c hcm
        rw [heq]
        exact hc c₀ hc₀
      | ok sout =>
        rw [hout] at hr
        simp only [] at hr
        cases herr : wireStderr env cmd with
        | error fl =>
          rw [herr] at hr
          simp only [] at hr
          rw [← hr] at hcm
          obtain ⟨c₀, hc₀, heq⟩ := killAll_mem_eq calls c hcm
          rw [heq]
          exact hc c₀ hc₀
        | ok serr =>
          rw [herr] at hr
          simp only [] at hr
          by_cases hspawn : env.spawnOk cmd.name = true
          · rw [if_pos hspawn] at hr
            have hnew : (0 < i →
                sin = StdinSrc.pipeFromPrev) ∧ (i + 1 < n → sout = .piped) := by
              constructor
              · intro hi
                have hprev : prevOut = true := h (by omega)
                rw [hprev, wireStdin_prev] at hin
                injection hin with h1
                exact h1.symm
              · intro hlt
                have hne : rest.isEmpty = false := by
                  cases hrest : rest with
                  | nil => rw [hrest] at hn; simp at hn; omega
                  | cons a b => rfl
                rw [hne, wireStdout_piped] at hout
                injection hout with h1
                exact h1.symm
            have hc' : ∀ c' ∈ calls ++
                [⟨i, cmd.name, cmd.args, sin, sout, serr, .running⟩],
                (0 < c'.stage → c'.stdin = .pipeFromPrev) ∧
                (c'.stage + 1 < n → c'.stdout = .piped) := by
              intro c' hcm'
              rcases List.mem_append.mp hcm' with h1 | h2
              · exact hc c' h1
              · simp at h2
                rw [h2]
                exact hnew
            by_cases hrest : rest.isEmpty = true
            · have hrnil : rest = [] := List.isEmpty_iff.mp hrest
              rw [hrnil] at hr
              rw [← hr] at hcm
              simp only [runStages] at hcm
              obtain ⟨c₀, hc₀, heq⟩ := waitAll_mem_eq _ c hcm
              rw [heq]
              exact hc' c₀ hc₀
            · rw [Bool.not_eq_true] at hrest
              exact ih (i + 1) (!rest.isEmpty) _ _ r
                (by rw [hn]; simp [List.length_cons]; omega)
                (fun _ => by rw [hrest]; rfl) hc' hr c hcm
          · rw [if_neg hspawn] at hr
            rw [← hr] at hcm
            obtain ⟨c₀, hc₀, heq⟩ := killAll_mem_eq calls c hcm
            rw [heq]
            exact hc c₀ hc₀

/-! ## Claim theorems -/

/-- C1: if wiring or spawning stage `i` of a pipeline fails, then
`execute_pipeline` force-terminates every process already spawned (all of
which belong to stages before `i`), attempts exactly the stages `0..i` and
none after, and leaves no process of the pipeline running when it
returns. -/
theorem execute_pipeline_aborts_on_failure (env : Env)
    (cmds : List ParsedCommand) (i : Nat) (f : ExecFailure)
    (h : (execute_pipeline env cmds).failedAt = some (i, f)) :
    (∀ c ∈ (execute_pipeline env cmds).calls,
      c.status = .killed ∧ c.stage < i) ∧
    (execute_pipeline env cmds).attempted = List.range (i + 1) ∧
    (∀ c ∈ (execute_pipeline env cmds).calls, c.status ≠ .running) := by
  obtain ⟨h1, h2, h3⟩ := runStages_failedAt env cmds 0 false [] []
    (execute_pipeline env cmds) i f (by simp) rfl h
  refine ⟨h2, ?_, ?_⟩
  · rw [h3, List.range_eq_range']
    simp
  · intro c hcm
    rcases runStages_no_running env cmds 0 false [] []
        (execute_pipeline env cmds) rfl c hcm with hk | hk <;>
      rw [hk] <;> decide

/-- An effect oracle on which only creating the file `d` fails. -/
def failEnv : Env :=
  ⟨fun _ => true, fun path => !(path == "d"), fun _ => true, fun _ => true⟩

/-- A three-stage pipeline whose last stage redirects stdout to `d`. -/
def failCmds : List ParsedCommand :=
  [⟨"a", [], none, none, none⟩, ⟨"b", [], none, none, none⟩,
   ⟨"c", [], none, some ("d", false), none⟩]

/-- Witness for C1: on `failEnv`/`failCmds` the last stage's output redirect
fails, both earlier processes end up killed, and exactly stages 0,1,2 were
attempted. -/
theorem execute_pipeline_aborts_on_failure_witness :
    (execute_pipeline failEnv failCmds).failedAt =
        some (2, .outputRedirect "d") ∧
      ((∀ c ∈ (execute_pipeline failEnv failCmds).calls,
        c.status = .killed ∧ c.stage < 2) ∧
      (execute_pipeline failEnv failCmds).attempted = List.range 3 ∧
      (∀ c ∈ (execute_pipeline failEnv failCmds).calls,
        c.status ≠ .running)) :=
  ⟨by decide, execute_pipeline_aborts_on_failure failEnv failCmds 2
    (.outputRedirect "d") (by decide)⟩

/-- C8: blanking `stdin_redirect` on every stage after the first and
`stdout_redirect` on every stage before the last changes nothing about the
execution, and in the spawn log every stage after the first reads from the
previous stage's pipe while every stage before the last writes to a pipe. -/
theorem execute_pipeline_nonterminal_redirects_ignored (env : Env)
    (cmds : List ParsedCommand) :
    execute_pipeline env (maskPipeline cmds) = execute_pipeline env cmds ∧
    ∀ c ∈ (execute_pipeline env cmds).calls,
      (0 < c.stage → c.stdin = .pipeFromPrev) ∧
      (c.stage + 1 < cmds.length → c.stdout = .piped) := by
  constructor
  · exact runStages_mask env cmds 0 false [] [] (fun hi => absurd rfl hi)
  · exact runStages_wiring env cmds.length cmds 0 false [] []
      (execute_pipeline env cmds) (by simp) (fun hi => absurd rfl hi)
      (by simp) rfl

/-- C2: on a successful parse, the tokens after the command name are
partitioned deterministically — each is an argument or exactly one half of
one operator–path pair — and `args` is exactly the argument-role tokens in
input order (in particular a sublist of the token tail). -/
theorem parse_single_command_partitions_tokens (segment : String)
    (cmd : ParsedCommand) (h : parse_single_command segment = .ok cmd) :
    ∃ name rest roles, splitWhitespace segment = name :: rest ∧
      classifyTokens rest = some roles ∧ roles.length = rest.length ∧
      rolesWF roles = true ∧ cmd.args = selectArgs rest roles ∧
      cmd.args.Sublist rest := by
  unfold parse_single_command at h
  cases htok : splitWhitespace segment with
  | nil =>
    rw [htok] at h
    exact Except.noConfusion h
  | cons name rest =>
    simp only [htok] at h
    cases hscan : scanTokens rest initScan with
    | error e =>
      simp only [hscan] at h
      exact Except.noConfusion h
    | ok st =>
      simp only [hscan] at h
      injection h with h1
      obtain ⟨roles, hc, hl, hwf, ha⟩ := scan_classify rest initScan st hscan
      have hargs : cmd.args = selectArgs rest roles := by
        rw [← h1]
        simpa [initScan] using ha
      refine ⟨name, rest, roles, rfl, hc, hl, hwf, hargs, ?_⟩
      rw [hargs]
      exact selectArgs_sublist rest roles

/-- Witness for C2 at the segment `"cat a > f b"`. -/
theorem parse_single_command_partitions_tokens_witness :
    ∃ name rest roles, splitWhitespace "cat a > f b" = name :: rest ∧
      classifyTokens rest = some roles ∧ roles.length = rest.length ∧
      rolesWF roles = true ∧
      (⟨"cat", ["a", "b"], none, some ("f", false), none⟩ :
        ParsedCommand).args = selectArgs rest roles ∧
      (⟨"cat", ["a", "b"], none, some ("f", false), none⟩ :
        ParsedCommand).args.Sublist rest :=
  parse_single_command_partitions_tokens "cat a > f b" _ rfl

/-- C3: on a successful parse, the scan consumes a definite sequence of
operator–path pairs and each redirect field is the last-write-wins fold of
that sequence (later occurrences silently overwrite earlier ones). -/
theorem parse_single_command_last_write_wins (segment : String)
    (cmd : ParsedCommand) (h : parse_single_command segment = .ok cmd) :
    ∃ name rest ps, splitWhitespace segment = name :: rest ∧
      redirectPairs rest = some ps ∧
      cmd.stdin_redirect = ps.foldl stdinStep none ∧
      cmd.stdout_redirect = ps.foldl stdoutStep none ∧
      cmd.stderr_redirect = ps.foldl stderrStep none := by
  unfold parse_single_command at h
  cases htok : splitWhitespace segment with
  | nil =>
    rw [htok] at h
    exact Except.noConfusion h
  | cons name rest =>
    simp only [htok] at h
    cases hscan : scanTokens rest initScan with
    | error e =>
      simp only [hscan] at h
      exact Except.noConfusion h
    | ok st =>
      simp only [hscan] at h
      injection h with h1
      obtain ⟨ps, hp, h2, h3, h4⟩ := scan_lastwins rest initScan st hscan
      refine ⟨name, rest, ps, rfl, hp, ?_, ?_, ?_⟩
      · rw [← h1]
        simpa [initScan] using h2
      · rw [← h1]
        simpa [initScan] using h3
      · rw [← h1]
        simpa [initScan] using h4

/-- Witness for C3 at the segment `"cat > a.txt > b.txt"`: the parse yields
`stdout_redirect = ("b.txt", false)` — the last occurrence wins. -/
theorem parse_single_command_last_write_wins_witness :
    parse_single_command "cat > a.txt > b.txt" =
        .ok ⟨"cat", [], none, some ("b.txt", false), none⟩ ∧
      ∃ name rest ps, splitWhitespace "cat > a.txt > b.txt" = name :: rest ∧
        redirectPairs rest = some ps ∧
        (⟨"cat", [], none, some ("b.txt", false), none⟩ :
          ParsedCommand).stdin_redirect = ps.foldl stdinStep none ∧
        (⟨"cat", [], none, some ("b.txt", false), none⟩ :
          ParsedCommand).stdout_redirect = ps.foldl stdoutStep none ∧
        (⟨"cat", [], none, some ("b.txt", false), none⟩ :
          ParsedCommand).stderr_redirect = ps.foldl stderrStep none :=
  ⟨rfl, parse_single_command_last_write_wins "cat > a.txt > b.txt" _ rfl⟩

/-- C4 counterexample: `"cat >"` contains no pipe character, yet
`parse_pipeline_commands` does not yield exactly one `ParsedCommand` — it
fails (with the missing-redirect-target error), so the claim as stated is
false for this input. -/
theorem pipeline_no_pipe_counterexample :
    (∀ c ∈ "cat >".data, ¬c = '|') ∧
    parse_pipeline_commands "cat >" =
      .error "输出重定向缺少文件名 (>)\nmy_shell: 解析错误:" ∧
    ∀ l : List ParsedCommand, parse_pipeline_commands "cat >" ≠ .ok l := by
  refine ⟨by decide, rfl, ?_⟩
  intro l h
  rw [show parse_pipeline_commands "cat >" =
    .error "输出重定向缺少文件名 (>)\nmy_shell: 解析错误:" from rfl] at h
  exact Except.noConfusion h

/-- C4 (amended): for inputs without a pipe character,
`parse_pipeline_commands` succeeds exactly when `parse_single_command`
does, and on success yields exactly that one command. -/
theorem pipeline_no_pipe_agrees_with_single (s : String)
    (hnp : ∀ c ∈ s.data, ¬c = '|') (l : List ParsedCommand) :
    parse_pipeline_commands s = .ok l ↔
      ∃ c, parse_single_command s = .ok c ∧ l = [c] := by
  unfold parse_pipeline_commands
  rw [splitPipe_no_pipe s hnp]
  by_cases htr : trimStr s = ""
  · have hnil : splitWhitespace s = [] := (splitWhitespace_eq_nil_iff s).mpr htr
    constructor
    · intro hok
      exfalso
      simp [parseSegments, htr] at hok
    · rintro ⟨c, hc, -⟩
      exfalso
      unfold parse_single_command at hc
      rw [hnil] at hc
      exact Except.noConfusion hc
  · cases hp : parse_single_command (trimStr s) with
    | error e =>
      have hs : parse_single_command s = .error e := by
        rw [← parse_single_command_trim, hp]
      constructor
      · intro hok
        exfalso
        simp [parseSegments, htr, hp] at hok
      · rintro ⟨c, hc, -⟩
        exfalso
        rw [hs] at hc
        exact Except.noConfusion hc
    | ok c =>
      have hs : parse_single_command s = .ok c := by
        rw [← parse_single_command_trim, hp]
      constructor
      · intro hok
        have hstep : parseSegments [s] [] = parseSegments [] [c] := by
          simp [parseSegments, htr, hp]
        rw [hstep] at hok
        simp [parseSegments] at hok
        exact ⟨c, hs, hok.symm⟩
      · rintro ⟨c', hc', hl⟩
        rw [hs] at hc'
        injection hc' with hcc
        rw [hl, ← hcc]
        have hstep : parseSegments [s] [] = parseSegments [] [c] := by
          simp [parseSegments, htr, hp]
        rw [hstep]
        rfl

/-- Witness for the amended C4 at `"echo hi"`. -/
theorem pipeline_no_pipe_agrees_with_single_witness :
    parse_pipeline_commands "echo hi" =
        .ok [⟨"echo", ["hi"], none, none, none⟩] ↔
      ∃ c, parse_single_command "echo hi" = .ok c ∧
        ([(⟨"echo", ["hi"], none, none, none⟩ : ParsedCommand)] : List ParsedCommand) = [c] :=
  pipeline_no_pipe_agrees_with_single "echo hi" (by decide) _

/-- C5 counterexample: the segment `"cat > >"` has a token list ending in
the reserved operator `>`, yet `parse_single_command` succeeds (the final
`>` was consumed as the redirect path of the preceding `>`), so the claim
as stated is false for this input. -/
theorem trailing_operator_counterexample :
    (splitWhitespace "cat > >").getLast? = some ">" ∧ isOpTok ">" = true ∧
    parse_single_command "cat > >" =
      .ok ⟨"cat", [], none, some (">", false), none⟩ :=
  ⟨by decide, by decide, rfl⟩

/-- C5 (amended): when the token list after the name is `t ++ [op]` with
`op` a reserved operator and the scan of `t` alone succeeds (so `op` is
reached in operator position with no following token), the parse fails with
the missing-target error identifying `op`. -/
theorem parse_single_command_trailing_operator_fails (segment : String)
    (name op : String) (t : List String) (st : ScanState)
    (htok : splitWhitespace segment = name :: (t ++ [op]))
    (hop : isOpTok op = true)
    (hscan : scanTokens t initScan = .ok st) :
    parse_single_command segment = .error (missingTargetMsg op) := by
  unfold parse_single_command
  rw [htok]
  simp only []
  rw [scan_append t initScan st hscan [op], scan_trailing_op op hop st]

/-- Witness for the amended C5: `"cat >"` fails with the missing-target
error for `>`. -/
theorem parse_single_command_trailing_operator_fails_witness :
    parse_single_command "cat >" = .error (missingTargetMsg ">") :=
  parse_single_command_trailing_operator_fails "cat >" "cat" ">" [] initScan
    (by decide) (by decide) rfl

/-- C6 counterexample: `"cat > |"` has a pipe-separated segment that trims
to empty, yet `parse_pipeline_commands` returns the missing-redirect-target
error of the earlier segment, not the empty-pipeline-stage error, so the
claim as stated is false for this input. -/
theorem empty_stage_error_counterexample :
    splitPipe "cat > |" = ["cat > ", ""] ∧ trimStr "" = "" ∧
    parse_pipeline_commands "cat > |" =
      .error "输出重定向缺少文件名 (>)\nmy_shell: 解析错误:" ∧
    "输出重定向缺少文件名 (>)\nmy_shell: 解析错误:" ≠ emptyStageMsg :=
  ⟨by decide, rfl, rfl, by decide⟩

/-- C6 (amended): when some segment trims to empty and every segment before
the first such segment parses successfully, `parse_pipeline_commands` fails
with the empty-pipeline-stage error (and hence produces no command list). -/
theorem pipeline_empty_stage_error (line : String) (pre : List String)
    (seg : String) (post : List String)
    (hsplit : splitPipe line = pre ++ seg :: post)
    (hempty : trimStr seg = "")
    (hpre : ∀ s ∈ pre, ∃ c, parse_single_command (trimStr s) = .ok c) :
    parse_pipeline_commands line = .error emptyStageMsg := by
  unfold parse_pipeline_commands
  rw [hsplit]
  exact parseSegments_first_empty pre seg post [] hempty hpre

/-- Witness for the amended C6: `"echo hi | | wc"` fails with the
empty-pipeline-stage error. -/
theorem pipeline_empty_stage_error_witness :
    parse_pipeline_commands "echo hi | | wc" = .error emptyStageMsg :=
  pipeline_empty_stage_error "echo hi | | wc" ["echo hi "] " " [" wc"]
    (by decide) (by decide)
    (by
      intro s hs
      simp at hs
      rw [hs]
      exact ⟨⟨"echo", ["hi"], none, none, none⟩, rfl⟩)

/-- C7 counterexample: tokenization is not on ASCII whitespace — the
no-break space U+00A0 also separates tokens, so on `"a b"` the parser
produces two tokens where the maximal-runs-of-non-ASCII-whitespace reading
predicts one. -/
theorem tokenization_ascii_counterexample :
    splitWhitespace "a b" = ["a", "b"] ∧
    asciiTokens "a b" = ["a b"] ∧
    splitWhitespace "a b" ≠ asciiTokens "a b" ∧
    parse_single_command "a b" = .ok ⟨"a", ["b"], none, none, none⟩ := by
  have hascii : asciiTokens "a b" = ["a b"] := by
    unfold asciiTokens
    rw [← splitOnP_filter_eq_maximalRuns isAsciiWhitespace]
    decide
  refine ⟨by decide, hascii, ?_, rfl⟩
  rw [hascii]
  decide

/-- C7 (amended): `parse_single_command` tokenizes on Unicode
`White_Space`: tokens are exactly the maximal runs of non-whitespace
characters, with no quoting and no escaping — a quoted string is split into
multiple tokens and the quote characters are kept as ordinary characters. -/
theorem tokenization_unicode_whitespace :
    (∀ s : String, splitWhitespace s =
      (maximalRuns isRustWhitespace s.data).map (fun l => String.mk l)) ∧
    parse_single_command "echo \"hello world\"" =
      .ok ⟨"echo", ["\"hello", "world\""], none, none, none⟩ :=
  ⟨splitWhitespace_eq_runs, rfl⟩

/-- C9: a successful `parse_pipeline_commands` yields at least one command,
and every command has a non-empty name. -/
theorem parse_pipeline_commands_nonempty (line : String)
    (cmds : List ParsedCommand)
    (h : parse_pipeline_commands line = .ok cmds) :
    cmds ≠ [] ∧ ∀ c ∈ cmds, c.name ≠ "" := by
  unfold parse_pipeline_commands at h
  obtain ⟨hlen, hmem⟩ := parseSegments_ok (splitPipe line) [] cmds h
  constructor
  · intro hcontra
    rw [hcontra] at hlen
    simp at hlen
    exact splitPipe_ne_nil line (List.length_eq_zero.mp hlen.symm)
  · intro c hcm
    rcases hmem c hcm with hin | ⟨seg, hseg, hps⟩
    · simp at hin
    · exact parse_single_command_name_ne (trimStr seg) c hps

/-- Witness for C9 at `"echo hi | wc"`. -/
theorem parse_pipeline_commands_nonempty_witness :
    ([(⟨"echo", ["hi"], none, none, none⟩ : ParsedCommand),
      ⟨"wc", [], none, none, none⟩] ≠ ([] : List ParsedCommand)) ∧
    ∀ c ∈ [(⟨"echo", ["hi"], none, none, none⟩ : ParsedCommand),
      ⟨"wc", [], none, none, none⟩], c.name ≠ "" :=
  parse_pipeline_commands_nonempty "echo hi | wc" _ rfl

/-- C10: the empty-command branch of `parse_single_command` is unreachable
through `parse_pipeline_commands`: segments are trimmed and whitespace-only
segments rejected as empty pipeline stages first, and a non-empty trimmed
segment always yields at least one token. -/
theorem parse_pipeline_commands_no_empty_command_error (line : String) :
    parse_pipeline_commands line ≠ .error emptyCommandMsg := by
  intro h
  unfold parse_pipeline_commands at h
  exact parseSegments_error_ne (splitPipe line) [] emptyCommandMsg h rfl

end Shell
